import Mathlib

/-!
Verification development for the DesignBase FishFlow report pipeline.

The statistical engine (`fishflow/common/support.py`, `fishflow/common/spacetime.py`,
`fishflow/depth/report.py`) is embedded shallowly: long-form prediction tables become
lists of row structures, dense matrices become lists of rows of rationals, and the
floating-point quantities produced by `log`/`exp` are modelled over the reals.
The frontend helper `calculateFilteredMinimums` (JavaScript) is embedded over
association lists mirroring the JSON objects it traverses.
-/

namespace DesignBase

/-- Error taxonomy of the report pipeline: `ValidationError` for malformed inputs
(mismatched decision/choice universes, bad selection counts), `NumericalError` for a
zero or negative probability surfacing during likelihood computation. -/
inductive ReportError where
  | validationError
  | numericalError
deriving DecidableEq

/-! ### Likelihood engine (`fishflow/common/support.py`)

`log_likelihood_member`: blend the odds `O = ε·G_H + (1-ε)·G_B`, row-normalize,
take the rowwise dot product with the one-hot selection matrix, and sum the logs. -/

/-- One decision row of the blended odds `O = ε·G_H + (1-ε)·G_B` (elementwise). -/
def blendRow (eps : ℚ) (hRow bRow : List ℚ) : List ℚ :=
  List.zipWith (fun h b => eps * h + (1 - eps) * b) hRow bRow

/-- Row normalization `G_ε`: divide each entry of the row by the row sum. -/
def normalizeRow (row : List ℚ) : List ℚ :=
  row.map (fun o => o / row.sum)

/-- Per-decision probability of the actually selected choice: the rowwise dot product
of the normalized blended odds with the one-hot selection row. -/
def selectedProb (eps : ℚ) (bRow hRow cRow : List ℚ) : ℚ :=
  (List.zipWith (fun g ci => g * ci) (normalizeRow (blendRow eps hRow bRow)) cRow).sum

/-- The per-decision selected-choice probabilities, one per decision row of the
matrices `G_B` (reference), `G_H` (hypothesis) and `C` (one-hot selections). -/
def decisionProbs (eps : ℚ) (gB gH c : List (List ℚ)) : List ℚ :=
  List.zipWith (fun rows cRow => selectedProb eps (Prod.fst rows) (Prod.snd rows) cRow)
    (List.zip gB gH) c

/-- Modelled from the spec: the executable body of `log_likelihood_member`
(`fishflow/common/support.py`) is not part of the repository sources; the algebra is
taken from the design documents and the failure behaviour (a `NumericalError` raised
on any zero or negative per-decision probability, never a silent floor) from the
spec's error taxonomy and the implementation notes. -/
noncomputable def log_likelihood_member (eps : ℚ) (gB gH c : List (List ℚ)) :
    Except ReportError ℝ :=
  let ps := decisionProbs eps gB gH c
  if ps.any (fun p => decide (p ≤ 0)) then .error .numericalError
  else .ok ((ps.map (fun p => Real.log (p : ℝ))).sum)

/-- The list of log-posterior terms `Lᵢ = log P(εᵢ) + log_likelihood_member(εᵢ, …)`,
propagating the first failure. -/
noncomputable def logPosteriors (gB gH c : List (List ℚ)) :
    List (ℚ × ℝ) → Except ReportError (List ℝ)
  | [] => .ok []
  | ep :: rest =>
    match log_likelihood_member ep.1 gB gH c, logPosteriors gB gH c rest with
    | .ok l, .ok ls => .ok ((Real.log ep.2 + l) :: ls)
    | .error err, _ => .error err
    | .ok _, .error err => .error err

/-- The minimum ε of the family (`ε_k` in the design document). -/
def minEps : List ℚ → ℚ
  | [] => 0
  | e :: es => es.foldl min e

/-- Default prior: even likelihood for every member of the family. -/
noncomputable def uniformPrior (n : ℕ) : List ℝ := List.replicate n ((n : ℝ))⁻¹

/-- Modelled from the spec: the executable body of `prob_members`
(`fishflow/common/support.py`) is not part of the repository sources; this follows the
design document's reduction: compute each `Lᵢ`, subtract the `L_k` belonging to the
minimum ε, exponentiate to `rᵢ`, and normalize `rᵢ / Σⱼ rⱼ`. -/
noncomputable def prob_members (gB gH c : List (List ℚ)) (epsilons : List ℚ)
    (priorProbs : Option (List ℝ)) : Except ReportError (List ℝ) :=
  let priors := priorProbs.getD (uniformPrior epsilons.length)
  match logPosteriors gB gH c (epsilons.zip priors) with
  | .error err => .error err
  | .ok Ls =>
    let Lk := Ls.getD (epsilons.indexOf (minEps epsilons)) 0
    let rs := Ls.map (fun L => Real.exp (L - Lk))
    .ok (rs.map (fun r => r / rs.sum))

/-- The maximum of a list of reals (`0` for the empty list). -/
def maxFold : List ℝ → ℝ
  | [] => 0
  | x :: xs => xs.foldl max x

/-- The reduction exactly as the spec words it: subtract `max(L)` from every `Lᵢ`
before exponentiating, then normalize the exponentials to sum to 1. Stated as a
separate definition so that its agreement with `prob_members` can be proved. -/
noncomputable def prob_members_subtract_max (gB gH c : List (List ℚ)) (epsilons : List ℚ)
    (priorProbs : Option (List ℝ)) : Except ReportError (List ℝ) :=
  let priors := priorProbs.getD (uniformPrior epsilons.length)
  match logPosteriors gB gH c (epsilons.zip priors) with
  | .error err => .error err
  | .ok Ls =>
    let Lmax := maxFold Ls
    let rs := Ls.map (fun L => Real.exp (L - Lmax))
    .ok (rs.map (fun r => r / rs.sum))

/-! ### Mixture generator (`compute_mixtures`, `fishflow/common/support.py`)

Long-form prediction tables are lists of rows keyed by `(_decision, _choice)`. -/

/-- One row of a long-form model prediction table: `_decision`, `_choice`,
`probability`. -/
structure PredRow where
  decision : ℕ
  choice : ℕ
  probability : ℚ
deriving DecidableEq

/-- The `(_decision, _choice)` key of a prediction row. -/
def PredRow.key (r : PredRow) : ℕ × ℕ := (r.decision, r.choice)

/-- The first reference row carrying a given `(_decision, _choice)` key. -/
def refMatch (ref : List PredRow) (k : ℕ × ℕ) : Option PredRow :=
  ref.find? (fun r => r.decision == k.1 && r.choice == k.2)

/-- The reference probability recorded for a key (0 when the key is absent). -/
def refProbOf (ref : List PredRow) (k : ℕ × ℕ) : ℚ :=
  ((refMatch ref k).map PredRow.probability).getD 0

/-- Inner join of the model and reference tables on `(_decision, _choice)`: each
model row is paired with the probability of the reference row sharing its key. -/
def joinPreds (model ref : List PredRow) : List (PredRow × ℚ) :=
  model.filterMap (fun m => (refMatch ref m.key).map (fun r => (m, r.probability)))

/-- Blended odds of one joined row: `odds = G_H·ε + (1-ε)·G_B`. -/
def mixOdds (eps pH pB : ℚ) : ℚ := pH * eps + (1 - eps) * pB

/-- One row of `mixtures_df`: `_decision`, `_choice`, `epsilon`, `probability`. -/
structure MixtureRow where
  decision : ℕ
  choice : ℕ
  epsilon : ℚ
  probability : ℚ
deriving DecidableEq

/-- Modelled from the spec: the executable body of `compute_mixtures`
(`fishflow/common/support.py`) is not part of the repository sources; this follows
the five steps of the design document: join reference with model on the keys, cross
join with the ε-sequence, compute the blended odds per row, sum the odds across all
choices of a decision for each ε, and divide odds by their group sum. -/
def compute_mixtures (model ref : List PredRow) (epsilons : List ℚ) : List MixtureRow :=
  let joined := joinPreds model ref
  epsilons.flatMap (fun e =>
    joined.map (fun j =>
      { decision := j.1.decision, choice := j.1.choice, epsilon := e,
        probability := mixOdds e j.1.probability j.2 /
          ((joined.filter (fun j2 => j2.1.decision == j.1.decision)).map
            (fun j2 => mixOdds e j2.1.probability j2.2)).sum }))

/-! ### Matrix builder (`build_model_matrices`, `fishflow/common/support.py`) -/

/-- One row of the selections table: `_decision`, `_choice`. -/
structure SelRow where
  decision : ℕ
  choice : ℕ
deriving DecidableEq

/-- The `(_decision, _choice)` key universe of a table. -/
def predKeys (l : List PredRow) : List (ℕ × ℕ) := l.map PredRow.key

/-- The distinct decisions of a table, in first-appearance order. -/
def decisionsOf (l : List PredRow) : List ℕ := (l.map PredRow.decision).dedup

/-- The distinct choices available within one decision (the shared column layout
of that decision's matrix rows). -/
def choicesOf (l : List PredRow) (d : ℕ) : List ℕ :=
  ((l.filter (fun r => r.decision == d)).map PredRow.choice).dedup

/-- `N_C`: the maximum number of choices across all decisions. -/
def maxChoices (l : List PredRow) : ℕ :=
  ((decisionsOf l).map (fun d => (choicesOf l d).length)).foldr max 0

/-- The probability a table assigns to `(d, c)` (0 when the pair is absent). -/
def probOf (df : List PredRow) (d c : ℕ) : ℚ :=
  ((df.find? (fun r => r.decision == d && r.choice == c)).map PredRow.probability).getD 0

/-- Pad a matrix row on the right with zeros to the common width `n`. -/
def padTo (n : ℕ) (row : List ℚ) : List ℚ := row ++ List.replicate (n - row.length) 0

/-- The dense matrix row of a table for decision `d`, laid out along the model
table's choice ordering for `d` and padded to the common width. -/
def probRow (df model : List PredRow) (d n : ℕ) : List ℚ :=
  padTo n ((choicesOf model d).map (fun c => probOf df d c))

/-- The one-hot selection row for decision `d`: 1 at each selected choice of `d`,
0 elsewhere. -/
def selRow (sel : List SelRow) (model : List PredRow) (d n : ℕ) : List ℚ :=
  padTo n ((choicesOf model d).map (fun c =>
    if ((sel.filter (fun s => s.decision == d)).map SelRow.choice).contains c then (1 : ℚ) else 0))

/-- Whether every model decision has exactly one selection, whose choice occurs
among that decision's choices. -/
def validSelections (model : List PredRow) (sel : List SelRow) : Bool :=
  (decisionsOf model).all (fun d =>
    ((sel.filter (fun s => s.decision == d)).length == 1) &&
    (sel.filter (fun s => s.decision == d)).all
      (fun s => (choicesOf model d).contains s.choice))

/-- Modelled from the spec: the executable body of `build_model_matrices`
(`fishflow/common/support.py`) is not part of the repository sources; construction
follows spec section 4.1 and the design documents' data checks: fail with a
`ValidationError` when the model and reference key universes differ or when some
decision lacks a (matched) unique selection, otherwise emit the two dense
probability matrices and the one-hot selection matrix over a shared column layout. -/
def build_model_matrices (model ref : List PredRow) (sel : List SelRow) :
    Except ReportError (List (List ℚ) × List (List ℚ) × List (List ℚ)) :=
  if (predKeys model).toFinset ≠ (predKeys ref).toFinset then .error .validationError
  else if validSelections model sel = false then .error .validationError
  else
    .ok ((decisionsOf model).map (fun d => probRow model model d (maxChoices model)),
         (decisionsOf model).map (fun d => probRow ref model d (maxChoices model)),
         (decisionsOf model).map (fun d => selRow sel model d (maxChoices model)))

/-! ### Spatial indexer (`build_geojson_h3`, `fishflow/common/spacetime.py`)

Spatial index keys are generic over a linear order; the source sorts H3 index
strings alphabetically, i.e. lexicographically. -/

/-- The deduplicated spatial index keys in sorted (lexicographic) order. -/
def sortedKeys {α : Type} [LinearOrder α] (keys : List α) : List α :=
  keys.toFinset.sort (fun a b => a ≤ b)

/-- The integer cell id assigned to a key: its position in the sorted distinct
keys (ids start at 0 and rise). -/
def cellIdOf {α : Type} [LinearOrder α] (keys : List α) (k : α) : ℕ :=
  (sortedKeys keys).indexOf k

/-- Modelled from the spec: the executable body of `build_geojson_h3`
(`fishflow/common/spacetime.py`) is not part of the repository sources; its cell-id
assignment is modelled per the design document: deduplicate the spatial index keys,
sort them, and enumerate integer cell ids starting at 0 in that order. Boundary
polygon derivation (an external `h3` library call) is outside the embedding. -/
def build_geojson_h3_cells {α : Type} [LinearOrder α] (keys : List α) : List (α × ℕ) :=
  (sortedKeys keys).enum.map (fun p => (p.2, p.1))

/-! ### Depth report (`build_minimums`, `build_occupancy`, `fishflow/depth/report.py`)
and the frontend consumer -/

/-- A timestamp, abstracted to what the report derives from it: a chronological
order key, a zero-based calendar month index (January = 0) and an hour-of-day
index — Python's `datetime` guarantees `month ∈ 1..12` and `hour ∈ 0..23`. -/
structure Timestamp where
  ord : ℕ
  monthIdx : Fin 12
  hourIdx : Fin 24
deriving DecidableEq

/-- The calendar month of a timestamp, 1-12 with January = 1 (Python `dt.month`). -/
def Timestamp.month (t : Timestamp) : ℕ := t.monthIdx.val + 1

/-- The hour of the day of a timestamp, 0-23 (Python `dt.hour`). -/
def Timestamp.hour (t : Timestamp) : ℕ := t.hourIdx.val

/-- One row of a per-cell mixture table: `cell_id`, `depth_bin`, `datetime`,
`epsilon`, `probability`. -/
structure CellMixRow where
  cellId : ℕ
  depthBin : ℚ
  datetime : Timestamp
  epsilon : ℚ
  probability : ℚ
deriving DecidableEq

/-- The minimum of a list of probabilities (`none` for an empty bin). -/
def minFold : List ℚ → Option ℚ
  | [] => none
  | x :: xs => some (xs.foldl min x)

/-- The pure-hypothesis (ε=1) rows of a mixture table. -/
def hypothesisRows (rows : List CellMixRow) : List CellMixRow :=
  rows.filter (fun r => r.epsilon == 1)

/-- The ε=1 rows falling in the bin `(cell, depth bin, month, hour)`. -/
def binRows (rows : List CellMixRow) (cell : ℕ) (db : ℚ) (month hour : ℕ) :
    List CellMixRow :=
  (hypothesisRows rows).filter (fun r =>
    r.cellId == cell && r.depthBin == db && r.datetime.month == month &&
      r.datetime.hour == hour)

/-- Modelled from the spec: the executable body of `build_minimums`
(`fishflow/depth/report.py`) is not part of the repository sources; modelled per the
design documents and the `MinimumsSchema`: filter to ε=1, break each timestamp into
calendar month (keyed 1-12 per the authoritative schema) and hour of day, bin by
`(cell_id, depth_bin, month, hour)`, and take the minimum probability per bin into a
24-entry per-hour array (hours with no data are null). The accumulator argument of
the source signature is omitted: claims concern a fresh build. -/
def build_minimums (rows : List CellMixRow) : List ((ℕ × ℚ × ℕ) × List (Option ℚ)) :=
  (((hypothesisRows rows).map (fun r => (r.cellId, r.depthBin, r.datetime.month))).dedup).map
    (fun k => (k, (List.range 24).map (fun h =>
      minFold ((binRows rows k.1 k.2.1 k.2.2 h).map CellMixRow.probability))))

/-- The distinct ε values of a mixture table, sorted ascending. -/
def epsSorted (rows : List CellMixRow) : List ℚ :=
  (rows.map CellMixRow.epsilon).toFinset.sort (fun a b => a ≤ b)

/-- The scenario's distinct depth bins, sorted ascending. -/
def depthBinsSorted (depthBins : List ℚ) : List ℚ :=
  depthBins.toFinset.sort (fun a b => a ≤ b)

/-- The probability recorded for `(datetime, ε, depth bin)` in the table, `none`
(null) when no row matches. -/
def occLookup (rows : List CellMixRow) (t : Timestamp) (e db : ℚ) : Option ℚ :=
  (rows.find? (fun r => r.datetime == t && r.epsilon == e && r.depthBin == db)).map
    CellMixRow.probability

/-- Modelled from the spec: the executable body of `build_occupancy`
(`fishflow/depth/report.py`) is not part of the repository sources; modelled per the
design documents and the `OccupancySchema`: rows follow the given timeline, columns
are laid out as `model_idx * num_depth_bins + depth_bin_idx` over the sorted unique
ε values and the scenario's sorted depth bins, and cells with no matching row are
null. -/
def build_occupancy (depthBins : List ℚ) (timeline : List Timestamp)
    (rows : List CellMixRow) : List (List (Option ℚ)) :=
  timeline.map (fun t =>
    (List.range ((epsSorted rows).length * (depthBinsSorted depthBins).length)).map
      (fun col => occLookup rows t
        ((epsSorted rows).getD (col / (depthBinsSorted depthBins).length) 0)
        ((depthBinsSorted depthBins).getD (col % (depthBinsSorted depthBins).length) 0)))

/-- The maximum depth bin over a cell's rows (`build_cell_depths` for one cell). -/
def cellMaxDepth (rows : List CellMixRow) : ℚ :=
  (rows.map CellMixRow.depthBin).foldr max 0

/-- JavaScript `Math.min` accumulation started from `Infinity`: `none` plays the
role of `Infinity` (no value seen yet). -/
def jsAccMin : Option ℚ → ℚ → Option ℚ
  | none, x => some x
  | some m, x => some (min m x)

/-- The month/hour loops of `calculateFilteredMinimums`: fold `Math.min` over the
stored values at the selected months and hours, skipping missing month keys and
out-of-range hours. -/
def cellFilteredMin (monthData : List (ℕ × List ℚ)) (months hours : List ℕ) : Option ℚ :=
  months.foldl (fun acc m =>
    match monthData.lookup m with
    | none => acc
    | some hourArray => hours.foldl (fun acc2 h =>
        if h < hourArray.length then jsAccMin acc2 (hourArray.getD h 0) else acc2) acc) none

/-- `calculateFilteredMinimums` from the frontend API helpers: for each cell of the
minimums object, look up its depth bin and that bin's month data (skipping the cell
when either lookup fails, as the JavaScript `continue` does), fold the minimum over
the selected months and hours, and assign 0 when the fold found nothing
(`minValue === Infinity ? 0 : minValue`). -/
def calculateFilteredMinimums (minimums : List (ℕ × List (ℚ × List (ℕ × List ℚ))))
    (cellDepths : List (ℕ × ℚ)) (selectedMonths selectedHours : List ℕ) :
    List (ℕ × ℚ) :=
  minimums.filterMap (fun cm =>
    match cellDepths.lookup cm.1 with
    | none => none
    | some db =>
      match cm.2.lookup db with
      | none => none
      | some monthData =>
        some (cm.1, (cellFilteredMin monthData selectedMonths selectedHours).getD 0))

/-! ### Theorems: likelihood engine -/


/-- Dividing every element by a constant divides the sum. -/
theorem sum_map_div (l : List ℝ) (s : ℝ) : (l.map (fun x => x / s)).sum = l.sum / s := by
  induction l with
  | nil => simp
  | cons x xs ih => simp [ih, add_div]

/-- With all per-decision selected probabilities positive, `log_likelihood_member`
succeeds with the sum of their natural logs. -/
theorem log_likelihood_member_pos_eq (eps : ℚ) (gB gH c : List (List ℚ))
    (h : ∀ p ∈ decisionProbs eps gB gH c, 0 < p) :
    log_likelihood_member eps gB gH c =
      .ok (((decisionProbs eps gB gH c).map (fun p => Real.log (p : ℝ))).sum) := by
  unfold log_likelihood_member
  have hany : (decisionProbs eps gB gH c).any (fun p => decide (p ≤ 0)) = false := by
    rw [List.any_eq_false]
    intro p hp
    simpa using not_le.mpr (h p hp)
  simp [hany]

/-- With all per-decision selected probabilities positive at every ε, the
log-posterior terms all succeed. -/
theorem logPosteriors_pos_eq (gB gH c : List (List ℚ)) (l : List (ℚ × ℝ))
    (h : ∀ ep ∈ l, ∀ p ∈ decisionProbs ep.1 gB gH c, 0 < p) :
    logPosteriors gB gH c l = .ok (l.map (fun ep =>
      Real.log ep.2 + ((decisionProbs ep.1 gB gH c).map (fun p => Real.log (p : ℝ))).sum)) := by
  induction l with
  | nil => rfl
  | cons ep rest ih =>
    have h1 := log_likelihood_member_pos_eq ep.1 gB gH c (h ep (List.mem_cons_self ep rest))
    have h2 := ih (fun q hq => h q (List.mem_cons_of_mem ep hq))
    simp [logPosteriors, h1, h2]

/-- C1: for every valid input (matrices with strictly positive per-decision
selected probabilities at every ε, a non-empty ε-sequence, and a prior of matching
length when supplied), `prob_members` returns a support vector with one entry per
ε, in the order of the ε-sequence, whose entries sum to 1.0 within 1e-9. -/
theorem prob_members_sums_to_one (gB gH c : List (List ℚ)) (epsilons : List ℚ)
    (priorProbs : Option (List ℝ))
    (hne : epsilons ≠ [])
    (hplen : ∀ P ∈ priorProbs, P.length = epsilons.length)
    (hpos : ∀ e ∈ epsilons, ∀ p ∈ decisionProbs e gB gH c, 0 < p) :
    ∃ vs, prob_members gB gH c epsilons priorProbs = .ok vs ∧
      vs.length = epsilons.length ∧ |vs.sum - 1| ≤ 1 / 10 ^ 9 := by
  have hlen : (priorProbs.getD (uniformPrior epsilons.length)).length = epsilons.length := by
    cases priorProbs with
    | none => simp [uniformPrior]
    | some P => simpa using hplen P rfl
  have hz : ∀ ep ∈ epsilons.zip (priorProbs.getD (uniformPrior epsilons.length)),
      ∀ p ∈ decisionProbs ep.1 gB gH c, 0 < p := by
    rintro ⟨e, pr⟩ hep
    exact hpos e (List.of_mem_zip hep).1
  have hLs := logPosteriors_pos_eq gB gH c _ hz
  simp only [prob_members, hLs]
  set L := (epsilons.zip (priorProbs.getD (uniformPrior epsilons.length))).map (fun ep =>
      Real.log ep.2 + ((decisionProbs ep.1 gB gH c).map (fun p => Real.log (p : ℝ))).sum) with hLdef
  have hLlen : L.length = epsilons.length := by
    simp [hLdef, List.length_zip, hlen]
  set Lk := L.getD (epsilons.indexOf (minEps epsilons)) 0 with hLk
  set rs := L.map (fun x => Real.exp (x - Lk)) with hrs
  have hrslen : rs.length = epsilons.length := by simp [hrs, hLlen]
  have hrsne : rs ≠ [] := by
    intro hempty
    exact hne (List.length_eq_zero.mp (by rw [← hrslen, hempty]; rfl))
  have hrpos : 0 < rs.sum := by
    refine List.sum_pos rs ?_ hrsne
    intro x hx
    rcases List.mem_map.mp hx with ⟨y, _, rfl⟩
    exact Real.exp_pos _
  refine ⟨rs.map (fun r => r / rs.sum), rfl, by simp [hrslen], ?_⟩
  rw [sum_map_div, div_self hrpos.ne']
  norm_num

/-- Normalized exponentials are invariant under a common shift of the exponents. -/
theorem normalized_exp_shift (Ls : List ℝ) (c₁ c₂ : ℝ) :
    (Ls.map (fun x => Real.exp (x - c₁))).map
      (fun r => r / (Ls.map (fun x => Real.exp (x - c₁))).sum) =
    (Ls.map (fun x => Real.exp (x - c₂))).map
      (fun r => r / (Ls.map (fun x => Real.exp (x - c₂))).sum) := by
  have key : ∀ d : ℝ, (Ls.map (fun x => Real.exp (x - d))).map
      (fun r => r / (Ls.map (fun x => Real.exp (x - d))).sum) =
      (Ls.map Real.exp).map (fun x => x / (Ls.map Real.exp).sum) := by
    intro d
    have h1 : Ls.map (fun x => Real.exp (x - d)) =
        (Ls.map Real.exp).map (fun x => x / Real.exp d) := by
      simp [List.map_map, Function.comp, Real.exp_sub]
    rw [h1, sum_map_div, List.map_map]
    refine List.map_congr_left ?_
    intro x _
    have he : Real.exp d ≠ 0 := (Real.exp_pos d).ne'
    rcases eq_or_ne (Ls.map Real.exp).sum 0 with hs | hs
    · simp [Function.comp, hs]
    · simp only [Function.comp]
      field_simp
  rw [key c₁, key c₂]

/-- C3: on every input, the support vector computed by the code's reduction
(subtract the `L_k` of the minimum ε before exponentiating and normalizing) equals
the vector computed by the spec's reduction (subtract `max(L)` instead): the two
normalized posteriors agree exactly. -/
theorem prob_members_eq_subtract_max (gB gH c : List (List ℚ)) (epsilons : List ℚ)
    (priorProbs : Option (List ℝ)) :
    prob_members gB gH c epsilons priorProbs =
      prob_members_subtract_max gB gH c epsilons priorProbs := by
  simp only [prob_members, prob_members_subtract_max]
  cases hL : logPosteriors gB gH c (epsilons.zip (priorProbs.getD (uniformPrior epsilons.length))) with
  | error err => rfl
  | ok Ls => exact congrArg Except.ok (normalized_exp_shift Ls _ _)

/-- C7: `log_likelihood_member` fails with a `NumericalError` whenever some
per-decision probability of the selected choice is zero or negative, and with all of
them positive it returns the exact sum of their natural logs — degenerate
probabilities are never silently floored or clamped. -/
theorem log_likelihood_member_error_iff (eps : ℚ) (gB gH c : List (List ℚ)) :
    ((∃ p ∈ decisionProbs eps gB gH c, p ≤ 0) →
      log_likelihood_member eps gB gH c = .error .numericalError) ∧
    ((∀ p ∈ decisionProbs eps gB gH c, 0 < p) →
      log_likelihood_member eps gB gH c =
        .ok (((decisionProbs eps gB gH c).map (fun p => Real.log (p : ℝ))).sum)) := by
  constructor
  · rintro ⟨p, hp, hple⟩
    unfold log_likelihood_member
    have hany : (decisionProbs eps gB gH c).any (fun p => decide (p ≤ 0)) = true := by
      rw [List.any_eq_true]
      exact ⟨p, hp, by simpa using hple⟩
    simp [hany]
  · exact log_likelihood_member_pos_eq eps gB gH c

/-- Witness for C1 on a one-decision, one-choice instance with ε-sequence `[0, 1]`
and the default uniform prior. -/
theorem prob_members_sums_to_one_check :
    ∃ vs, prob_members [[1]] [[1]] [[1]] [0, 1] none = .ok vs ∧
      vs.length = ([(0 : ℚ), 1]).length ∧ |vs.sum - 1| ≤ 1 / 10 ^ 9 :=
  prob_members_sums_to_one [[1]] [[1]] [[1]] [0, 1] none (by simp) (by simp)
    (by norm_num [decisionProbs, selectedProb, normalizeRow, blendRow])

/-- Witness for C7: a decision whose selected choice has blended probability 0
raises the `NumericalError`. -/
theorem log_likelihood_member_error_iff_check :
    (∃ p ∈ decisionProbs (1/2 : ℚ) [[0, 1]] [[0, 1]] [[1, 0]], p ≤ 0) ∧
    log_likelihood_member (1/2 : ℚ) [[0, 1]] [[0, 1]] [[1, 0]] =
      .error .numericalError := by
  have h : ∃ p ∈ decisionProbs (1/2 : ℚ) [[0, 1]] [[0, 1]] [[1, 0]], p ≤ 0 := by
    norm_num [decisionProbs, selectedProb, normalizeRow, blendRow]
  exact ⟨h, (log_likelihood_member_error_iff (1/2) [[0, 1]] [[0, 1]] [[1, 0]]).1 h⟩



/-! ### Theorems: mixture generator -/

/-- When some reference row carries key `k`, `refMatch` finds such a row. -/
theorem refMatch_exists (ref : List PredRow) (k : ℕ × ℕ)
    (h : ∃ r ∈ ref, PredRow.key r = k) :
    ∃ r, refMatch ref k = some r ∧ r ∈ ref ∧ PredRow.key r = k := by
  rcases h with ⟨r0, hr0, hk⟩
  have hsome : (refMatch ref k).isSome := by
    rw [refMatch, List.find?_isSome]
    exact ⟨r0, hr0, by subst hk; simp [PredRow.key]⟩
  rcases Option.isSome_iff_exists.mp hsome with ⟨r, hr⟩
  have hmem := List.mem_of_find?_eq_some hr
  have hp := List.find?_some hr
  simp at hp
  exact ⟨r, hr, hmem, by simp [PredRow.key, hp.1, hp.2]⟩

/-- With nodup reference keys, the looked-up probability of a row present in the
reference table is that row's own probability. -/
theorem refProbOf_self (ref : List PredRow) (r : PredRow)
    (hrn : (ref.map PredRow.key).Nodup) (hr : r ∈ ref) :
    refProbOf ref (PredRow.key r) = r.probability := by
  rcases refMatch_exists ref (PredRow.key r) ⟨r, hr, rfl⟩ with ⟨r2, hfind, hmem, hkey⟩
  have h2 : r2 = r := List.inj_on_of_nodup_map hrn hmem hr hkey
  simp [refProbOf, hfind, h2]

/-- When every model key has a reference partner, the inner join keeps every model
row, enriched with the matching reference probability. -/
theorem joinPreds_eq_map (model ref : List PredRow)
    (htotal : ∀ m ∈ model, ∃ r ∈ ref, PredRow.key r = PredRow.key m) :
    joinPreds model ref = model.map (fun m => (m, refProbOf ref m.key)) := by
  induction model with
  | nil => rfl
  | cons m rest ih =>
    rcases refMatch_exists ref m.key (htotal m (List.mem_cons_self m rest)) with
      ⟨r, hfind, hmem2, hkey2⟩
    have ih2 := ih (fun q hq => htotal q (List.mem_cons_of_mem m hq))
    have hval : refProbOf ref m.key = r.probability := by
      simp [refProbOf, hfind]
    simp only [joinPreds, List.filterMap_cons, List.map_cons, hfind, Option.map_some] at ih2 ⊢
    rw [hval]
    exact congrArg (List.cons _) ih2

/-- With identical nodup key universes, summing the looked-up reference
probabilities over the model rows of one decision equals summing the reference
table's own probabilities over that decision. -/
theorem sum_refProb_filter (model ref : List PredRow) (d : ℕ)
    (hmn : (model.map PredRow.key).Nodup)
    (hrn : (ref.map PredRow.key).Nodup)
    (huniv : ∀ k, k ∈ model.map PredRow.key ↔ k ∈ ref.map PredRow.key) :
    ((model.filter (fun r => r.decision == d)).map (fun m => refProbOf ref m.key)).sum =
    ((ref.filter (fun r => r.decision == d)).map PredRow.probability).sum := by
  have hperm : (model.map PredRow.key).Perm (ref.map PredRow.key) :=
    (List.perm_ext_iff_of_nodup hmn hrn).mpr huniv
  have hfperm : (((model.map PredRow.key).filter (fun k => k.1 == d)).map
      (refProbOf ref)).Perm
      ((((ref.map PredRow.key).filter (fun k => k.1 == d))).map (refProbOf ref)) :=
    (hperm.filter _).map _
  have hcomm : ∀ l : List PredRow,
      ((l.map PredRow.key).filter (fun k => k.1 == d)).map (refProbOf ref) =
      (l.filter (fun r => r.decision == d)).map (fun m => refProbOf ref m.key) := by
    intro l
    rw [List.filter_map, List.map_map]
    rfl
  have hsum := hfperm.sum_eq
  rw [hcomm, hcomm] at hsum
  have hmap : (ref.filter (fun r => r.decision == d)).map (fun m => refProbOf ref m.key) =
      (ref.filter (fun r => r.decision == d)).map PredRow.probability :=
    List.map_congr_left (fun r hrf => refProbOf_self ref r hrn (List.mem_of_mem_filter hrf))
  rw [hsum, hmap]

/-- Every output row of `compute_mixtures` arises from a model row and one of the
requested ε, and its probability is the blended odds over their per-decision sum. -/
theorem compute_mixtures_mem (model ref : List PredRow) (epsilons : List ℚ)
    (htotal : ∀ m ∈ model, ∃ r ∈ ref, PredRow.key r = PredRow.key m)
    (x : MixtureRow) (hx : x ∈ compute_mixtures model ref epsilons) :
    ∃ m ∈ model, x.decision = m.decision ∧ x.choice = m.choice ∧ x.epsilon ∈ epsilons ∧
      x.probability = mixOdds x.epsilon m.probability (refProbOf ref m.key) /
        ((model.filter (fun r => r.decision == m.decision)).map
          (fun r => mixOdds x.epsilon r.probability (refProbOf ref r.key))).sum := by
  have hj := joinPreds_eq_map model ref htotal
  simp only [compute_mixtures, hj] at hx
  rcases List.mem_flatMap.mp hx with ⟨e, he, hx2⟩
  rcases List.mem_map.mp hx2 with ⟨j, hjmem, hxeq⟩
  rcases List.mem_map.mp hjmem with ⟨m, hm, rfl⟩
  refine ⟨m, hm, ?_⟩
  subst hxeq
  refine ⟨rfl, rfl, he, ?_⟩
  show mixOdds e m.probability (refProbOf ref m.key) / _ = _
  rw [List.filter_map, List.map_map]
  rfl

/-- C4: `compute_mixtures` is an identity at the family endpoints: when both input
models have per-decision probabilities summing to 1 (over identical, duplicate-free
`(decision, choice)` universes), every output row at ε=0 carries exactly the
reference probability of its pair and every output row at ε=1 carries exactly the
hypothesis (model) probability of its pair; moreover every `(decision, choice)` pair
of the input appears in the output at every requested ε. -/
theorem compute_mixtures_endpoints (model ref : List PredRow) (epsilons : List ℚ)
    (hmn : (model.map PredRow.key).Nodup)
    (hrn : (ref.map PredRow.key).Nodup)
    (huniv : ∀ k, k ∈ model.map PredRow.key ↔ k ∈ ref.map PredRow.key)
    (hm1 : ∀ d ∈ model.map PredRow.decision,
      ((model.filter (fun r => r.decision == d)).map PredRow.probability).sum = 1)
    (hr1 : ∀ d ∈ ref.map PredRow.decision,
      ((ref.filter (fun r => r.decision == d)).map PredRow.probability).sum = 1) :
    (∀ x ∈ compute_mixtures model ref epsilons,
      (x.epsilon = 0 → ∃ r ∈ ref, r.decision = x.decision ∧ r.choice = x.choice ∧
          x.probability = r.probability) ∧
      (x.epsilon = 1 → ∃ m ∈ model, m.decision = x.decision ∧ m.choice = x.choice ∧
          x.probability = m.probability)) ∧
    (∀ e ∈ epsilons, ∀ m ∈ model, ∃ x ∈ compute_mixtures model ref epsilons,
      x.decision = m.decision ∧ x.choice = m.choice ∧ x.epsilon = e) := by
  have htotal : ∀ m ∈ model, ∃ r ∈ ref, PredRow.key r = PredRow.key m := by
    intro m hm
    have hk : PredRow.key m ∈ ref.map PredRow.key :=
      (huniv _).mp (List.mem_map_of_mem _ hm)
    rcases List.mem_map.mp hk with ⟨r, hr, hkey⟩
    exact ⟨r, hr, hkey⟩
  constructor
  · intro x hx
    rcases compute_mixtures_mem model ref epsilons htotal x hx with
      ⟨m, hm, hdec, hcho, _, hprob⟩
    constructor
    · rintro h0
      rw [h0] at hprob
      have hodds : ∀ a b : ℚ, mixOdds 0 a b = b := by intro a b; simp [mixOdds]
      rcases refMatch_exists ref m.key (htotal m hm) with ⟨r, hfind, hrmem, hrkey⟩
      have hrdec : r.decision = m.decision := congrArg Prod.fst hrkey
      have hrcho : r.choice = m.choice := congrArg Prod.snd hrkey
      have hrprob : refProbOf ref m.key = r.probability := by simp [refProbOf, hfind]
      have hsum : ((model.filter (fun q => q.decision == m.decision)).map
          (fun q => mixOdds 0 q.probability (refProbOf ref q.key))).sum = 1 := by
        have hcongr : ((model.filter (fun q => q.decision == m.decision)).map
            (fun q => mixOdds 0 q.probability (refProbOf ref q.key))) =
            ((model.filter (fun q => q.decision == m.decision)).map
              (fun q => refProbOf ref q.key)) :=
          List.map_congr_left (fun q _ => hodds q.probability _)
        rw [hcongr, sum_refProb_filter model ref m.decision hmn hrn huniv]
        apply hr1
        rw [← hrdec]
        exact List.mem_map_of_mem _ hrmem
      refine ⟨r, hrmem, by rw [hrdec, hdec], by rw [hrcho, hcho], ?_⟩
      rw [hprob, hsum, hodds, hrprob, div_one]
    · rintro h1e
      rw [h1e] at hprob
      have hodds : ∀ a b : ℚ, mixOdds 1 a b = a := by intro a b; simp [mixOdds]
      have hsum : ((model.filter (fun q => q.decision == m.decision)).map
          (fun q => mixOdds 1 q.probability (refProbOf ref q.key))).sum = 1 := by
        have hcongr : ((model.filter (fun q => q.decision == m.decision)).map
            (fun q => mixOdds 1 q.probability (refProbOf ref q.key))) =
            ((model.filter (fun q => q.decision == m.decision)).map PredRow.probability) :=
          List.map_congr_left (fun q _ => hodds q.probability _)
        rw [hcongr]
        exact hm1 m.decision (List.mem_map_of_mem _ hm)
      refine ⟨m, hm, hdec.symm, hcho.symm, ?_⟩
      rw [hprob, hsum, hodds, div_one]
  · intro e he m hm
    have hj := joinPreds_eq_map model ref htotal
    refine ⟨{ decision := m.decision, choice := m.choice, epsilon := e,
              probability := mixOdds e m.probability (refProbOf ref m.key) /
                (((model.map (fun q => (q, refProbOf ref q.key))).filter
                  (fun j2 => j2.1.decision == m.decision)).map
                  (fun j2 => mixOdds e j2.1.probability j2.2)).sum }, ?_, rfl, rfl, rfl⟩
    simp only [compute_mixtures, hj]
    exact List.mem_flatMap.mpr ⟨e, he, List.mem_map_of_mem _ (List.mem_map_of_mem _ hm)⟩


/-- Witness for C4 at a concrete instance (one decision, two choices, skewed
hypothesis against a uniform reference, ε-sequence `[0, 1]`). -/
theorem compute_mixtures_endpoints_check :
    ((([⟨0, 0, 4/5⟩, ⟨0, 1, 1/5⟩] : List PredRow).map PredRow.key).Nodup) ∧
    ((∀ x ∈ compute_mixtures [⟨0, 0, 4/5⟩, ⟨0, 1, 1/5⟩] [⟨0, 0, 1/2⟩, ⟨0, 1, 1/2⟩] [0, 1],
      (x.epsilon = 0 → ∃ r ∈ ([⟨0, 0, 1/2⟩, ⟨0, 1, 1/2⟩] : List PredRow),
        r.decision = x.decision ∧ r.choice = x.choice ∧ x.probability = r.probability) ∧
      (x.epsilon = 1 → ∃ m ∈ ([⟨0, 0, 4/5⟩, ⟨0, 1, 1/5⟩] : List PredRow),
        m.decision = x.decision ∧ m.choice = x.choice ∧ x.probability = m.probability)) ∧
    (∀ e ∈ ([0, 1] : List ℚ), ∀ m ∈ ([⟨0, 0, 4/5⟩, ⟨0, 1, 1/5⟩] : List PredRow),
      ∃ x ∈ compute_mixtures [⟨0, 0, 4/5⟩, ⟨0, 1, 1/5⟩] [⟨0, 0, 1/2⟩, ⟨0, 1, 1/2⟩] [0, 1],
        x.decision = m.decision ∧ x.choice = m.choice ∧ x.epsilon = e)) :=
  ⟨by decide,
   compute_mixtures_endpoints _ _ _ (by decide) (by decide) (fun k => Iff.rfl)
     (by intro d hd; simp at hd; subst hd; norm_num [List.filter])
     (by intro d hd; simp at hd; subst hd; norm_num [List.filter])⟩


/-! ### Theorems: matrix builder -/

/-- Summing the indicator of an absent element gives 0. -/
theorem sum_map_ite_not_mem (l : List ℕ) (a : ℕ) (h : a ∉ l) :
    (l.map (fun c => if c = a then (1 : ℚ) else 0)).sum = 0 := by
  induction l with
  | nil => simp
  | cons c cs ih =>
    have hne : c ≠ a := fun hc => h (hc ▸ List.mem_cons_self c cs)
    simp [hne, ih (fun hm => h (List.mem_cons_of_mem c hm))]

/-- Summing the indicator of `a` over a duplicate-free list containing `a` gives 1. -/
theorem sum_map_ite_nodup (l : List ℕ) (a : ℕ) (hnd : l.Nodup) (ha : a ∈ l) :
    (l.map (fun c => if c = a then (1 : ℚ) else 0)).sum = 1 := by
  induction l with
  | nil => cases ha
  | cons c cs ih =>
    rcases List.mem_cons.mp ha with rfl | hmem
    · have hzero := sum_map_ite_not_mem cs a (List.nodup_cons.mp hnd).1
      simp [hzero]
    · have hne : c ≠ a := by
        rintro rfl
        exact (List.nodup_cons.mp hnd).1 hmem
      simp [hne, ih (List.nodup_cons.mp hnd).2 hmem]

/-- A one-hot row built from a unique, matched selection sums to exactly 1. -/
theorem selRow_sum (sel : List SelRow) (model : List PredRow) (d n : ℕ)
    (h1 : (sel.filter (fun s => s.decision == d)).length = 1)
    (h2 : ∀ s ∈ sel.filter (fun s => s.decision == d), s.choice ∈ choicesOf model d) :
    (selRow sel model d n).sum = 1 := by
  rcases List.length_eq_one.mp h1 with ⟨s0, hs0⟩
  have hmem : s0.choice ∈ choicesOf model d := h2 s0 (by rw [hs0]; exact List.mem_singleton_self s0)
  have hnd : (choicesOf model d).Nodup := List.nodup_dedup _
  rw [selRow, padTo, List.sum_append, List.sum_replicate, smul_zero, add_zero, hs0]
  have hrw : ((choicesOf model d).map (fun c =>
      if (([s0] : List SelRow).map SelRow.choice).contains c then (1 : ℚ) else 0)) =
      ((choicesOf model d).map (fun c => if c = s0.choice then (1 : ℚ) else 0)) := by
    refine List.map_congr_left ?_
    intro c _
    by_cases hc : c = s0.choice
    · simp [hc]
    · simp [hc, Ne.symm hc]
  rw [hrw]
  exact sum_map_ite_nodup _ _ hnd hmem

/-- Propositional reading of the selection validity check. -/
theorem validSelections_iff (model : List PredRow) (sel : List SelRow) :
    validSelections model sel = true ↔ ∀ d ∈ decisionsOf model,
      (sel.filter (fun s => s.decision == d)).length = 1 ∧
      ∀ s ∈ sel.filter (fun s => s.decision == d), s.choice ∈ choicesOf model d := by
  rw [validSelections, List.all_eq_true]
  constructor
  · intro h d hd
    have hd2 := h d hd
    simp only [Bool.and_eq_true, beq_iff_eq, List.all_eq_true] at hd2
    exact ⟨hd2.1, fun s hs => by simpa using hd2.2 s hs⟩
  · intro h d hd
    have hd2 := h d hd
    simp only [Bool.and_eq_true, beq_iff_eq, List.all_eq_true]
    exact ⟨hd2.1, fun s hs => by simpa using hd2.2 s hs⟩

/-- Propositional reading of the key-universe equality check. -/
theorem sameUniverse_iff (model ref : List PredRow) :
    (predKeys model).toFinset = (predKeys ref).toFinset ↔
      ∀ k, k ∈ predKeys model ↔ k ∈ predKeys ref := by
  rw [Finset.ext_iff]
  constructor
  · intro h k
    simpa [List.mem_toFinset] using h k
  · intro h k
    simpa [List.mem_toFinset] using h k

/-- C8: `build_model_matrices` fails with a `ValidationError` whenever the model
and reference tables do not share an identical `(decision, choice)` universe, and
whenever some decision has zero or more than one selection; on valid input it
returns matrices whose one-hot selection rows each sum to exactly 1. -/
theorem build_model_matrices_validation (model ref : List PredRow) (sel : List SelRow) :
    (¬ (∀ k, k ∈ predKeys model ↔ k ∈ predKeys ref) →
      build_model_matrices model ref sel = .error .validationError) ∧
    ((∃ d ∈ decisionsOf model, (sel.filter (fun s => s.decision == d)).length ≠ 1) →
      build_model_matrices model ref sel = .error .validationError) ∧
    ((∀ k, k ∈ predKeys model ↔ k ∈ predKeys ref) →
     (∀ d ∈ decisionsOf model, (sel.filter (fun s => s.decision == d)).length = 1 ∧
        ∀ s ∈ sel.filter (fun s => s.decision == d), s.choice ∈ choicesOf model d) →
      ∃ mats, build_model_matrices model ref sel = .ok mats ∧
        ∀ row ∈ mats.2.2, row.sum = 1) := by
  refine ⟨?_, ?_, ?_⟩
  · intro hbad
    have hne : (predKeys model).toFinset ≠ (predKeys ref).toFinset :=
      fun h => hbad ((sameUniverse_iff model ref).mp h)
    rw [build_model_matrices, if_pos hne]
  · rintro ⟨d, hd, hcount⟩
    by_cases hu : (predKeys model).toFinset = (predKeys ref).toFinset
    · have hvs : validSelections model sel = false := by
        rcases Bool.eq_false_or_eq_true (validSelections model sel) with h | h
        · exact absurd ((validSelections_iff model sel).mp h d hd).1 hcount
        · exact h
      rw [build_model_matrices, if_neg (fun h => h hu), if_pos hvs]
    · rw [build_model_matrices, if_pos hu]
  · intro hu hvalid
    have hvs : validSelections model sel = true := (validSelections_iff model sel).mpr hvalid
    rw [build_model_matrices, if_neg (fun h => h ((sameUniverse_iff model ref).mpr hu)),
      if_neg (by simp [hvs])]
    refine ⟨_, rfl, ?_⟩
    intro row hrow
    rcases List.mem_map.mp hrow with ⟨d, hd, rfl⟩
    exact selRow_sum sel model d _ (hvalid d hd).1 (hvalid d hd).2

/-- Witness for C8 at a concrete valid instance (one decision, two choices, one
selection). -/
theorem build_model_matrices_validation_check :
    (∀ k, k ∈ predKeys [⟨0, 0, 1/2⟩, ⟨0, 1, 1/2⟩] ↔
        k ∈ predKeys [⟨0, 0, 1/3⟩, ⟨0, 1, 2/3⟩]) ∧
    ∃ mats, build_model_matrices [⟨0, 0, 1/2⟩, ⟨0, 1, 1/2⟩]
        [⟨0, 0, 1/3⟩, ⟨0, 1, 2/3⟩] [⟨0, 0⟩] = .ok mats ∧
      ∀ row ∈ mats.2.2, row.sum = 1 :=
  ⟨fun k => Iff.rfl,
   (build_model_matrices_validation [⟨0, 0, 1/2⟩, ⟨0, 1, 1/2⟩]
      [⟨0, 0, 1/3⟩, ⟨0, 1, 2/3⟩] [⟨0, 0⟩]).2.2 (fun k => Iff.rfl) (by decide)⟩


/-! ### Theorems: spatial indexer -/

/-- The sorted distinct keys are strictly sorted. -/
theorem sortedKeys_sorted {α : Type} [LinearOrder α] (keys : List α) :
    (sortedKeys keys).Sorted (fun a b => a < b) :=
  Finset.sort_sorted_lt keys.toFinset

/-- The sorted distinct keys carry no duplicates. -/
theorem sortedKeys_nodup {α : Type} [LinearOrder α] (keys : List α) :
    (sortedKeys keys).Nodup :=
  Finset.sort_nodup (fun a b => a ≤ b) keys.toFinset

/-- A key occurs among the sorted distinct keys iff it occurs in the input. -/
theorem mem_sortedKeys {α : Type} [LinearOrder α] (keys : List α) (a : α) :
    a ∈ sortedKeys keys ↔ a ∈ keys := by
  rw [sortedKeys, Finset.mem_sort, List.mem_toFinset]

/-- C9: the cell-id assignment of `build_geojson_h3` is a pure function of the
input key set (deterministic); the number of assigned ids equals the count of
distinct keys; the assigned ids are exactly `0, 1, …` in sorted key order; and the
id assignment is strictly increasing with the order of the distinct keys. -/
theorem build_geojson_h3_cells_spec {α : Type} [LinearOrder α] (keys : List α) :
    ((build_geojson_h3_cells keys).length = keys.toFinset.card) ∧
    ((build_geojson_h3_cells keys).map Prod.snd = List.range keys.toFinset.card) ∧
    (∀ p ∈ build_geojson_h3_cells keys, p.2 = cellIdOf keys p.1) ∧
    (∀ a ∈ keys, ∀ b ∈ keys, a < b → cellIdOf keys a < cellIdOf keys b) := by
  have hcard : (sortedKeys keys).length = keys.toFinset.card := Finset.length_sort _
  refine ⟨?_, ?_, ?_, ?_⟩
  · simp [build_geojson_h3_cells, hcard]
  · rw [build_geojson_h3_cells, List.map_map, ← hcard]
    have : (Prod.snd ∘ fun p : ℕ × α => (p.2, p.1)) = Prod.fst := rfl
    rw [this, List.enum_map_fst]
  · rintro ⟨k, i⟩ hp
    rcases List.mem_map.mp hp with ⟨q, hq, hqe⟩
    have hfst : q.1 = i := congrArg Prod.snd hqe
    have hsnd : q.2 = k := congrArg Prod.fst hqe
    have hget := List.mem_enum_iff_get?.mp hq
    rw [hfst, hsnd] at hget
    have hi : i < (sortedKeys keys).length := by
      rcases List.get?_eq_some.mp hget with ⟨hlt, _⟩
      exact hlt
    rcases List.get?_eq_some.mp hget with ⟨hlt, hval⟩
    have hmem : k ∈ sortedKeys keys := by
      rw [← hval]
      exact List.get_mem _ _ _
    have hidx : (sortedKeys keys).indexOf k < (sortedKeys keys).length :=
      List.indexOf_lt_length.mpr hmem
    have hgets : (sortedKeys keys).get ⟨(sortedKeys keys).indexOf k, hidx⟩ =
        (sortedKeys keys).get ⟨i, hlt⟩ := by
      rw [List.indexOf_get, hval]
    have hinj := List.nodup_iff_injective_get.mp (sortedKeys_nodup keys) hgets
    show i = cellIdOf keys k
    rw [cellIdOf]
    exact (congrArg Fin.val hinj).symm
  · intro a ha b hb hab
    have ha2 : a ∈ sortedKeys keys := (mem_sortedKeys keys a).mpr ha
    have hb2 : b ∈ sortedKeys keys := (mem_sortedKeys keys b).mpr hb
    have hia : (sortedKeys keys).indexOf a < (sortedKeys keys).length :=
      List.indexOf_lt_length.mpr ha2
    have hib : (sortedKeys keys).indexOf b < (sortedKeys keys).length :=
      List.indexOf_lt_length.mpr hb2
    rcases Nat.lt_trichotomy ((sortedKeys keys).indexOf a) ((sortedKeys keys).indexOf b) with
      h | h | h
    · exact h
    · exfalso
      have : a = b := by
        have h1 := List.indexOf_get hia
        have h2 := List.indexOf_get hib
        rw [← h1, ← h2]
        congr 1
        exact Fin.ext h
      exact absurd this (ne_of_lt hab)
    · exfalso
      have hlt := (sortedKeys_sorted keys).rel_get_of_lt
        (show (⟨(sortedKeys keys).indexOf b, hib⟩ : Fin (sortedKeys keys).length) <
          ⟨(sortedKeys keys).indexOf a, hia⟩ from h)
      rw [List.indexOf_get hia, List.indexOf_get hib] at hlt
      exact absurd hab (not_lt.mpr (le_of_lt hlt))

/-- Witness for C9 on a concrete key list with duplicates. -/
theorem build_geojson_h3_cells_spec_check :
    ('a' ∈ ['b', 'a', 'c', 'a']) ∧ ('c' ∈ ['b', 'a', 'c', 'a']) ∧ ('a' < 'c') ∧
    cellIdOf ['b', 'a', 'c', 'a'] 'a' < cellIdOf ['b', 'a', 'c', 'a'] 'c' :=
  ⟨by decide, by decide, by decide,
   (build_geojson_h3_cells_spec ['b', 'a', 'c', 'a']).2.2.2 'a' (by decide) 'c'
     (by decide) (by decide)⟩


/-! ### Theorems: depth report and frontend consumer -/

/-- A min-fold is bounded by its initial accumulator. -/
theorem foldl_min_le_init (l : List ℚ) (a : ℚ) : l.foldl min a ≤ a := by
  induction l generalizing a with
  | nil => simp
  | cons x xs ih => exact le_trans (ih (min a x)) (min_le_left a x)

/-- A min-fold is bounded by every list element. -/
theorem foldl_min_le_mem (l : List ℚ) (a x : ℚ) (hx : x ∈ l) : l.foldl min a ≤ x := by
  induction l generalizing a with
  | nil => cases hx
  | cons y ys ih =>
    rcases List.mem_cons.mp hx with rfl | hmem
    · exact le_trans (foldl_min_le_init ys (min a x)) (min_le_right a x)
    · exact ih (min a y) hmem

/-- A min-fold returns its initial accumulator or some list element. -/
theorem foldl_min_mem (l : List ℚ) (a : ℚ) : l.foldl min a = a ∨ l.foldl min a ∈ l := by
  induction l generalizing a with
  | nil => left; rfl
  | cons y ys ih =>
    rcases ih (min a y) with h | h
    · rcases min_cases a y with ⟨hm, _⟩ | ⟨hm, _⟩
      · left
        rw [List.foldl_cons, h, hm]
      · right
        rw [List.foldl_cons, h, hm]
        exact List.mem_cons_self y ys
    · right
      rw [List.foldl_cons]
      exact List.mem_cons_of_mem y h

/-- A successful `minFold` bounds every element from below. -/
theorem minFold_le (l : List ℚ) (v : ℚ) (hv : minFold l = some v) : ∀ x ∈ l, v ≤ x := by
  cases l with
  | nil => cases hv
  | cons y ys =>
    intro x hx
    have hveq : v = ys.foldl min y := by
      have := hv
      simp [minFold] at this
      exact this.symm
    rcases List.mem_cons.mp hx with rfl | hmem
    · rw [hveq]
      exact foldl_min_le_init ys x
    · rw [hveq]
      exact foldl_min_le_mem ys y x hmem

/-- A successful `minFold` returns an element of the list. -/
theorem minFold_mem (l : List ℚ) (v : ℚ) (hv : minFold l = some v) : v ∈ l := by
  cases l with
  | nil => cases hv
  | cons y ys =>
    have hveq : v = ys.foldl min y := by
      have := hv
      simp [minFold] at this
      exact this.symm
    rcases foldl_min_mem ys y with h | h
    · rw [hveq, h]
      exact List.mem_cons_self y ys
    · rw [hveq]
      exact List.mem_cons_of_mem y h

/-- Characterization of membership in a `(cell, depth bin, month, hour)` bin. -/
theorem mem_binRows (rows : List CellMixRow) (cell : ℕ) (db : ℚ) (month hour : ℕ)
    (r : CellMixRow) :
    r ∈ binRows rows cell db month hour ↔ r ∈ rows ∧ r.epsilon = 1 ∧ r.cellId = cell ∧
      r.depthBin = db ∧ r.datetime.month = month ∧ r.datetime.hour = hour := by
  rw [binRows, List.mem_filter, hypothesisRows, List.mem_filter]
  simp only [Bool.and_eq_true, beq_iff_eq]
  tauto

/-- C2: in the minimums summary, every month-level key is a calendar month number
in 1..12 (January = 1), and every month key maps to an array of exactly 24 per-hour
entries. -/
theorem build_minimums_schema (rows : List CellMixRow) :
    ∀ entry ∈ build_minimums rows,
      (1 ≤ entry.1.2.2 ∧ entry.1.2.2 ≤ 12) ∧ entry.2.length = 24 := by
  intro entry hmem
  rcases List.mem_map.mp hmem with ⟨k, hk, hke⟩
  subst hke
  have hkd := List.mem_dedup.mp hk
  rcases List.mem_map.mp hkd with ⟨r, _, hre⟩
  constructor
  · have hm : k.2.2 = r.datetime.month := by rw [← hre]
    refine ⟨?_, ?_⟩
    · show 1 ≤ k.2.2
      rw [hm, Timestamp.month]
      exact Nat.le_add_left 1 _
    · show k.2.2 ≤ 12
      rw [hm, Timestamp.month]
      exact Nat.succ_le_of_lt r.datetime.monthIdx.isLt
  · simp

/-- C6: every value stored in the minimums summary at `(cell, depth bin, month,
hour)` is the true minimum of the predicted probability over exactly the input rows
of the pure-hypothesis member (ε=1) matching that cell, depth bin, calendar month
and hour: it bounds all of them from below and is attained by one of them. -/
theorem build_minimums_values (rows : List CellMixRow) :
    ∀ entry ∈ build_minimums rows, ∀ h : ℕ, ∀ v : ℚ,
      entry.2.get? h = some (some v) →
      (∀ r ∈ rows, r.epsilon = 1 → r.cellId = entry.1.1 → r.depthBin = entry.1.2.1 →
        r.datetime.month = entry.1.2.2 → r.datetime.hour = h → v ≤ r.probability) ∧
      (∃ r ∈ rows, r.epsilon = 1 ∧ r.cellId = entry.1.1 ∧ r.depthBin = entry.1.2.1 ∧
        r.datetime.month = entry.1.2.2 ∧ r.datetime.hour = h ∧ r.probability = v) := by
  intro entry hmem h v hget
  rcases List.mem_map.mp hmem with ⟨k, hk, hke⟩
  subst hke
  simp only [List.get?_map] at hget
  rcases Option.map_eq_some'.mp hget with ⟨h2, hh2, hfold⟩
  have hh24 : h < 24 := by
    by_contra hge
    rw [List.get?_eq_none.mpr (by simpa using Nat.le_of_not_lt hge)] at hh2
    cases hh2
  rw [List.get?_range hh24] at hh2
  obtain rfl : h = h2 := by injection hh2
  have hle := minFold_le _ _ hfold
  have hmm := minFold_mem _ _ hfold
  constructor
  · intro r hr he hc hd hm hh
    refine hle r.probability (List.mem_map_of_mem _ ?_)
    rw [mem_binRows]
    exact ⟨hr, he, hc, hd, hm, hh⟩
  · rcases List.mem_map.mp hmm with ⟨r, hrb, hrp⟩
    rw [mem_binRows] at hrb
    exact ⟨r, hrb.1, hrb.2.1, hrb.2.2.1, hrb.2.2.2.1, hrb.2.2.2.2.1,
      hrb.2.2.2.2.2, hrp⟩

/-- Witness for C2 on a one-row mixture table. -/
theorem build_minimums_schema_check :
    ((((0 : ℕ), (2 : ℚ), (1 : ℕ)),
        (List.range 24).map (fun h => if h = 5 then some (1 : ℚ) else none)) ∈
      build_minimums [⟨0, 2, ⟨0, 0, 5⟩, 1, 1⟩]) ∧
    ((1 ≤ (1 : ℕ) ∧ (1 : ℕ) ≤ 12) ∧
      ((List.range 24).map (fun h => if h = 5 then some (1 : ℚ) else none)).length = 24) := by
  have hmem : (((0 : ℕ), (2 : ℚ), (1 : ℕ)),
      (List.range 24).map (fun h => if h = 5 then some (1 : ℚ) else none)) ∈
      build_minimums [⟨0, 2, ⟨0, 0, 5⟩, 1, 1⟩] := by decide
  exact ⟨hmem, build_minimums_schema _ _ hmem⟩

/-- Witness for C6 on a one-row mixture table. -/
theorem build_minimums_values_check :
    ((((0 : ℕ), (2 : ℚ), (1 : ℕ)),
        (List.range 24).map (fun h => if h = 5 then some (1 : ℚ) else none)) ∈
      build_minimums [⟨0, 2, ⟨0, 0, 5⟩, 1, 1⟩]) ∧
    (((List.range 24).map (fun h => if h = 5 then some (1 : ℚ) else none)).get? 5 =
      some (some 1)) ∧
    (∃ r ∈ [(⟨0, 2, ⟨0, 0, 5⟩, 1, 1⟩ : CellMixRow)], r.epsilon = 1 ∧ r.cellId = 0 ∧
      r.depthBin = 2 ∧ r.datetime.month = 1 ∧ r.datetime.hour = 5 ∧
      r.probability = 1) := by
  have hmem : (((0 : ℕ), (2 : ℚ), (1 : ℕ)),
      (List.range 24).map (fun h => if h = 5 then some (1 : ℚ) else none)) ∈
      build_minimums [⟨0, 2, ⟨0, 0, 5⟩, 1, 1⟩] := by decide
  have hget : ((List.range 24).map (fun h => if h = 5 then some (1 : ℚ) else none)).get? 5 =
      some (some 1) := by decide
  exact ⟨hmem, hget, (build_minimums_values _ _ hmem 5 1 hget).2⟩

/-- Every element is bounded by a max-fold. -/
theorem le_foldr_max (l : List ℚ) (b : ℚ) (x : ℚ) (hx : x ∈ l) : x ≤ l.foldr max b := by
  induction l with
  | nil => cases hx
  | cons y ys ih =>
    rcases List.mem_cons.mp hx with rfl | hmem
    · exact le_max_left _ _
    · exact le_trans (ih hmem) (le_max_right _ _)

/-- When the table determines at most one probability per `(datetime, ε, depth
bin)`, looking up a row's own key returns that row's probability. -/
theorem occLookup_eq (rows : List CellMixRow) (r : CellMixRow) (hr : r ∈ rows)
    (huniq : ∀ r1 ∈ rows, ∀ r2 ∈ rows, r1.datetime = r2.datetime →
      r1.epsilon = r2.epsilon → r1.depthBin = r2.depthBin →
      r1.probability = r2.probability) :
    occLookup rows r.datetime r.epsilon r.depthBin = some r.probability := by
  have hsome : (rows.find? (fun q => q.datetime == r.datetime && q.epsilon == r.epsilon &&
      q.depthBin == r.depthBin)).isSome := by
    rw [List.find?_isSome]
    exact ⟨r, hr, by simp⟩
  rcases Option.isSome_iff_exists.mp hsome with ⟨r2, hr2⟩
  have hmem2 := List.mem_of_find?_eq_some hr2
  have hp := List.find?_some hr2
  simp only [Bool.and_eq_true, beq_iff_eq] at hp
  rw [occLookup, hr2]
  simp only [Option.map_some']
  exact congrArg some (huniq r2 hmem2 r hr hp.1.1 hp.1.2 hp.2)

/-- C5: every row of the per-cell occupancy table has exactly
`mixture_member_count × depth_bin_count` columns; the value of an input row sits in
column `member_index * depth_bin_count + depth_bin_index`, where `member_index` is
the position of its ε in the sorted distinct ε values and `depth_bin_index` the
position of its depth bin in the sorted depth-bin list; and every column whose depth
bin exceeds the cell's recorded maximum depth bin is null in every row. -/
theorem build_occupancy_spec (depthBins : List ℚ) (timeline : List Timestamp)
    (rows : List CellMixRow)
    (hdb : ∀ r ∈ rows, r.depthBin ∈ depthBins)
    (huniq : ∀ r1 ∈ rows, ∀ r2 ∈ rows, r1.datetime = r2.datetime →
      r1.epsilon = r2.epsilon → r1.depthBin = r2.depthBin →
      r1.probability = r2.probability) :
    (∀ mrow ∈ build_occupancy depthBins timeline rows,
      mrow.length = (epsSorted rows).length * (depthBinsSorted depthBins).length) ∧
    (∀ r ∈ rows, ∀ ti : ℕ, timeline.get? ti = some r.datetime →
      ((build_occupancy depthBins timeline rows).get? ti).bind (fun mrow =>
        mrow.get? ((epsSorted rows).indexOf r.epsilon *
          (depthBinsSorted depthBins).length +
          (depthBinsSorted depthBins).indexOf r.depthBin)) = some (some r.probability)) ∧
    (∀ col : ℕ, col < (epsSorted rows).length * (depthBinsSorted depthBins).length →
      cellMaxDepth rows <
        (depthBinsSorted depthBins).getD (col % (depthBinsSorted depthBins).length) 0 →
      ∀ mrow ∈ build_occupancy depthBins timeline rows, mrow.get? col = some none) := by
  refine ⟨?_, ?_, ?_⟩
  · intro mrow hmrow
    rcases List.mem_map.mp hmrow with ⟨t, _, rfl⟩
    simp
  · intro r hr ti hti
    have heps : r.epsilon ∈ epsSorted rows := by
      rw [epsSorted, Finset.mem_sort, List.mem_toFinset]
      exact List.mem_map_of_mem _ hr
    have hdbm : r.depthBin ∈ depthBinsSorted depthBins := by
      rw [depthBinsSorted, Finset.mem_sort, List.mem_toFinset]
      exact hdb r hr
    have hei := List.indexOf_lt_length.mpr heps
    have hdi := List.indexOf_lt_length.mpr hdbm
    have hcol : (epsSorted rows).indexOf r.epsilon * (depthBinsSorted depthBins).length +
        (depthBinsSorted depthBins).indexOf r.depthBin <
        (epsSorted rows).length * (depthBinsSorted depthBins).length := by
      calc (epsSorted rows).indexOf r.epsilon * (depthBinsSorted depthBins).length +
            (depthBinsSorted depthBins).indexOf r.depthBin
          < (epsSorted rows).indexOf r.epsilon * (depthBinsSorted depthBins).length +
            (depthBinsSorted depthBins).length := Nat.add_lt_add_left hdi _
        _ = ((epsSorted rows).indexOf r.epsilon + 1) * (depthBinsSorted depthBins).length :=
            (Nat.succ_mul _ _).symm
        _ ≤ (epsSorted rows).length * (depthBinsSorted depthBins).length :=
            Nat.mul_le_mul_right _ (Nat.succ_le_of_lt hei)
    rw [build_occupancy, List.get?_map, hti]
    simp only [Option.map_some', Option.some_bind]
    rw [List.get?_map, List.get?_range hcol]
    simp only [Option.map_some']
    have hm0 : 0 < (depthBinsSorted depthBins).length := Nat.lt_of_le_of_lt (Nat.zero_le _) hdi
    have hdiv : ((epsSorted rows).indexOf r.epsilon * (depthBinsSorted depthBins).length +
        (depthBinsSorted depthBins).indexOf r.depthBin) / (depthBinsSorted depthBins).length =
        (epsSorted rows).indexOf r.epsilon := by
      rw [Nat.mul_comm, Nat.mul_add_div hm0, Nat.div_eq_of_lt hdi, Nat.add_zero]
    have hmod : ((epsSorted rows).indexOf r.epsilon * (depthBinsSorted depthBins).length +
        (depthBinsSorted depthBins).indexOf r.depthBin) % (depthBinsSorted depthBins).length =
        (depthBinsSorted depthBins).indexOf r.depthBin := by
      rw [Nat.mul_comm ((epsSorted rows).indexOf r.epsilon) (depthBinsSorted depthBins).length,
        Nat.mul_add_mod, Nat.mod_eq_of_lt hdi]
    rw [hdiv, hmod]
    have hgde : (epsSorted rows).getD ((epsSorted rows).indexOf r.epsilon) 0 = r.epsilon := by
      rw [List.getD_eq_getElem _ _ hei]
      exact List.getElem_indexOf hei
    have hgdd : (depthBinsSorted depthBins).getD
        ((depthBinsSorted depthBins).indexOf r.depthBin) 0 = r.depthBin := by
      rw [List.getD_eq_getElem _ _ hdi]
      exact List.getElem_indexOf hdi
    rw [hgde, hgdd, occLookup_eq rows r hr huniq]
  · intro col hcol hgt mrow hmrow
    rcases List.mem_map.mp hmrow with ⟨t, _, rfl⟩
    rw [List.get?_map, List.get?_range hcol]
    simp only [Option.map_some']
    refine congrArg some ?_
    rw [occLookup]
    have hnone : rows.find? (fun q => q.datetime == t &&
        q.epsilon == (epsSorted rows).getD (col / (depthBinsSorted depthBins).length) 0 &&
        q.depthBin == (depthBinsSorted depthBins).getD
          (col % (depthBinsSorted depthBins).length) 0) = none := by
      rw [List.find?_eq_none]
      intro q hq hp
      simp only [Bool.and_eq_true, beq_iff_eq] at hp
      have hle : q.depthBin ≤ cellMaxDepth rows :=
        le_foldr_max _ _ _ (List.mem_map_of_mem _ hq)
      rw [hp.2] at hle
      exact absurd hgt (not_lt.mpr hle)
    rw [hnone]
    rfl

/-- Witness for C5: a cell with maximum depth bin 1 in a scenario with depth bins
`[1, 2]` has column 1 (depth bin 2) null in every row. -/
theorem build_occupancy_spec_check :
    (∀ r ∈ [(⟨0, 1, ⟨0, 0, 5⟩, 0, 1⟩ : CellMixRow), ⟨0, 1, ⟨0, 0, 5⟩, 1, 0⟩],
      r.depthBin ∈ ([1, 2] : List ℚ)) ∧
    (∀ mrow ∈ build_occupancy [1, 2] [⟨0, 0, 5⟩]
        [⟨0, 1, ⟨0, 0, 5⟩, 0, 1⟩, ⟨0, 1, ⟨0, 0, 5⟩, 1, 0⟩],
      mrow.get? 1 = some none) := by
  have hdb : ∀ r ∈ [(⟨0, 1, ⟨0, 0, 5⟩, 0, 1⟩ : CellMixRow), ⟨0, 1, ⟨0, 0, 5⟩, 1, 0⟩],
      r.depthBin ∈ ([1, 2] : List ℚ) := by decide
  have huniq : ∀ r1 ∈ [(⟨0, 1, ⟨0, 0, 5⟩, 0, 1⟩ : CellMixRow), ⟨0, 1, ⟨0, 0, 5⟩, 1, 0⟩],
      ∀ r2 ∈ [(⟨0, 1, ⟨0, 0, 5⟩, 0, 1⟩ : CellMixRow), ⟨0, 1, ⟨0, 0, 5⟩, 1, 0⟩],
      r1.datetime = r2.datetime → r1.epsilon = r2.epsilon → r1.depthBin = r2.depthBin →
      r1.probability = r2.probability := by decide
  have hdbs : depthBinsSorted [1, 2] = [1, 2] := by
    have h : ([1, 2] : List ℚ).toFinset = insert (1 : ℚ) {2} := by simp
    have h1 : ∀ b ∈ ({2} : Finset ℚ), (fun a b => a ≤ b) 1 b := by
      intro b hb
      rw [Finset.mem_singleton] at hb
      rw [hb]
      norm_num
    have h2 : (1 : ℚ) ∉ ({2} : Finset ℚ) := by
      rw [Finset.mem_singleton]
      norm_num
    rw [depthBinsSorted, h, Finset.sort_insert _ h1 h2, Finset.sort_singleton]
  have heps : epsSorted [(⟨0, 1, ⟨0, 0, 5⟩, 0, 1⟩ : CellMixRow), ⟨0, 1, ⟨0, 0, 5⟩, 1, 0⟩] =
      [0, 1] := by
    have h : (([(⟨0, 1, ⟨0, 0, 5⟩, 0, 1⟩ : CellMixRow), ⟨0, 1, ⟨0, 0, 5⟩, 1, 0⟩]).map
        CellMixRow.epsilon).toFinset = insert (0 : ℚ) {1} := by simp
    have h1 : ∀ b ∈ ({1} : Finset ℚ), (fun a b => a ≤ b) 0 b := by
      intro b hb
      rw [Finset.mem_singleton] at hb
      rw [hb]
      norm_num
    have h2 : (0 : ℚ) ∉ ({1} : Finset ℚ) := by
      rw [Finset.mem_singleton]
      norm_num
    rw [epsSorted, h, Finset.sort_insert _ h1 h2, Finset.sort_singleton]
  refine ⟨hdb, ?_⟩
  intro mrow hmrow
  refine (build_occupancy_spec [1, 2] [⟨0, 0, 5⟩] _ hdb huniq).2.2 1 ?_ ?_ mrow hmrow
  · rw [heps, hdbs]
    norm_num
  · rw [hdbs]
    norm_num [cellMaxDepth, max_def]

/-- The hour loop leaves the accumulator unchanged when every selected hour is out
of range for the stored array. -/
theorem foldl_hours_skip (arr : List ℚ) (hours : List ℕ) (acc : Option ℚ)
    (h : ∀ x ∈ hours, ¬ x < arr.length) :
    hours.foldl (fun acc2 x =>
      if x < arr.length then jsAccMin acc2 (arr.getD x 0) else acc2) acc = acc := by
  induction hours generalizing acc with
  | nil => rfl
  | cons y ys ih =>
    rw [List.foldl_cons, if_neg (h y (List.mem_cons_self y ys))]
    exact ih acc (fun x hx => h x (List.mem_cons_of_mem y hx))

/-- The month/hour fold finds nothing when every selected month key either misses
or stores an array too short for every selected hour. -/
theorem cellFilteredMin_none (monthData : List (ℕ × List ℚ)) (hours : List ℕ) :
    ∀ months : List ℕ,
      (∀ m ∈ months, ∀ arr, monthData.lookup m = some arr →
        ∀ h ∈ hours, ¬ h < arr.length) →
      cellFilteredMin monthData months hours = none := by
  intro months
  induction months with
  | nil =>
    intro _
    rfl
  | cons m ms ih =>
    intro hnone
    rw [cellFilteredMin]
    simp only [List.foldl_cons]
    have hstep : (match monthData.lookup m with
        | none => (none : Option ℚ)
        | some hourArray => hours.foldl (fun acc2 h =>
            if h < hourArray.length then jsAccMin acc2 (hourArray.getD h 0) else acc2)
            none) = none := by
      cases hl : monthData.lookup m with
      | none => rfl
      | some arr =>
        exact foldl_hours_skip arr hours none
          (fun x hx => hnone m (List.mem_cons_self m ms) arr hl x hx)
    rw [hstep]
    have hrest := ih (fun q hq arr harr x hx =>
      hnone q (List.mem_cons_of_mem m hq) arr harr x hx)
    rw [cellFilteredMin] at hrest
    exact hrest

/-- C10: a cell of the minimums object whose depth-bin data exists but whose lookup
over the selected months and hours finds no stored value (empty selections,
mismatched month keys, or out-of-range hours) is assigned a filtered minimum of
exactly 0 — indistinguishable from a true minimum occupancy of 0. -/
theorem calculateFilteredMinimums_absent_zero
    (minimums : List (ℕ × List (ℚ × List (ℕ × List ℚ))))
    (cellDepths : List (ℕ × ℚ)) (months hours : List ℕ)
    (cellId : ℕ) (depthMap : List (ℚ × List (ℕ × List ℚ)))
    (db : ℚ) (monthData : List (ℕ × List ℚ))
    (hcm : (cellId, depthMap) ∈ minimums)
    (hdbv : cellDepths.lookup cellId = some db)
    (hmd : depthMap.lookup db = some monthData)
    (hnone : ∀ m ∈ months, ∀ arr, monthData.lookup m = some arr →
      ∀ h ∈ hours, ¬ h < arr.length) :
    (cellId, 0) ∈ calculateFilteredMinimums minimums cellDepths months hours := by
  rw [calculateFilteredMinimums]
  apply List.mem_filterMap.mpr
  refine ⟨(cellId, depthMap), hcm, ?_⟩
  simp only [hdbv, hmd, cellFilteredMin_none monthData hours months hnone]
  rfl

/-- Witness for C10: stored month key 0 (zero-indexed data) against selected month
1 yields an assigned minimum of 0. -/
theorem calculateFilteredMinimums_absent_zero_check :
    (((0 : ℕ), [((2 : ℚ), [((0 : ℕ), [(1 : ℚ)])])]) ∈
      [((0 : ℕ), [((2 : ℚ), [((0 : ℕ), [(1 : ℚ)])])])]) ∧
    (((0 : ℕ), (0 : ℚ)) ∈
      calculateFilteredMinimums [(0, [(2, [(0, [1])])])] [(0, 2)] [1] [0]) := by
  refine ⟨List.mem_singleton_self _, ?_⟩
  refine calculateFilteredMinimums_absent_zero _ _ _ _ 0 [(2, [(0, [1])])] 2 [(0, [1])]
    (List.mem_singleton_self _) (by decide) (by decide) ?_
  intro m hm arr harr
  have hm1 : m = 1 := by simpa using hm
  subst hm1
  simp [List.lookup] at harr

end DesignBase
